import Mathlib

/-!
Verification of the crypto arbitrage trading bot simulation.

A shallow embedding of `src/main.py`. Real-valued quantities are modelled as
rationals, and every random draw (Python's `random.uniform`) is passed in
explicitly as an oracle argument, so each function is a pure function of its
inputs and the draws.

Python's `sorted` is a stable ascending sort; any stable ascending sort
computes the same list, so we embed it as a stable insertion sort
(`sortByPrice`).  Python's `dict` keeps the first-insertion position of a key
and overwrites its value on re-insertion, which `dictInsert` mirrors.
-/

namespace CryptoBot

/-- Source `class Exchange`: a name, a trading fee (a percentage, e.g. `0.1` means
0.1%), and a price-variation bound (a fraction).  `__init__` stores the three
values unchanged; there is no validation. -/
structure Exchange where
  name : String
  trading_fee : ℚ
  price_variation : ℚ
  deriving DecidableEq, Repr

/-- Source `Exchange.get_price`: returns `base_price * (1 + u)`, `u` being the
draw of `random.uniform(-price_variation, price_variation)`, passed in
explicitly. -/
def Exchange.get_price (_e : Exchange) (base_price u : ℚ) : ℚ :=
  base_price * (1 + u)

/-- Source `Exchange.calculate_fee`: `amount * (trading_fee / 100)`. -/
def Exchange.calculate_fee (e : Exchange) (amount : ℚ) : ℚ :=
  amount * (e.trading_fee / 100)

/-- One entry of the per-coin `prices` dict: key (exchange name), quoted
price, and the exchange object. -/
structure PriceEntry where
  name : String
  price : ℚ
  exchange : Exchange
  deriving DecidableEq, Repr

/-- The tuple returned by `find_arbitrage_opportunity`:
`(coin, buy_exchange, sell_exchange, buy_price, sell_price, profit_pct,
buy_fee, sell_fee)`. -/
structure Candidate where
  coin : String
  buy_exchange : Exchange
  sell_exchange : Exchange
  buy_price : ℚ
  sell_price : ℚ
  profit_pct : ℚ
  buy_fee : ℚ
  sell_fee : ℚ
  deriving DecidableEq, Repr

/-- The data one iteration of the outer loop of
`find_arbitrage_opportunity` works on for a single coin: the coin symbol,
its current base price, and the list of exchanges in configured order, each
paired with its random draw `u` for this coin. -/
structure CoinData where
  coin : String
  base_price : ℚ
  quotes : List (Exchange × ℚ)
  deriving DecidableEq, Repr

/-- The value stored in the `prices` dict for one exchange:
`prices[exchange.name] = {price, exchange}`. -/
def mkEntry (base : ℚ) (q : Exchange × ℚ) : PriceEntry :=
  ⟨q.1.name, q.1.get_price base q.2, q.1⟩

/-- Insertion into a Python dict modelled as an association list: an
existing key keeps its position and its value is overwritten; a new key is
appended at the end. -/
def dictInsert (x : PriceEntry) : List PriceEntry → List PriceEntry
  | [] => [x]
  | p :: ps => if p.name = x.name then x :: ps else p :: dictInsert x ps

/-- The `prices` dict built by the inner loop of
`find_arbitrage_opportunity`: for each exchange in order,
`prices[exchange.name] = {price: exchange.get_price(...), exchange}`. -/
def buildPrices (base : ℚ) (quotes : List (Exchange × ℚ)) : List PriceEntry :=
  quotes.foldl (fun acc q => dictInsert (mkEntry base q) acc) []

/-- Stable insertion step: the new element goes in front of the first
element with a greater-or-equal price. -/
def insertByPrice (x : PriceEntry) : List PriceEntry → List PriceEntry
  | [] => [x]
  | y :: ys => if x.price ≤ y.price then x :: y :: ys else y :: insertByPrice x ys

/-- Source line `sorted(prices.items(), key=lambda x: x[1]["price"])`: a
stable ascending sort by price.  Python's `sorted` is stable, and all
stable ascending sorts agree, so this insertion sort computes the same
list. -/
def sortByPrice : List PriceEntry → List PriceEntry
  | [] => []
  | x :: xs => insertByPrice x (sortByPrice xs)

/-- The body of `find_arbitrage_opportunity` after the sort: buy at
`sorted_prices[0]`, sell at `sorted_prices[-1]`, fees on each leg, net
prices, and the profit percentage. -/
def mkCandidate (coin : String) (pb ps : PriceEntry) : Candidate :=
  let buy_fee := pb.exchange.calculate_fee pb.price
  let sell_fee := ps.exchange.calculate_fee ps.price
  let net_buy_price := pb.price + buy_fee
  let net_sell_price := ps.price - sell_fee
  ⟨coin, pb.exchange, ps.exchange, pb.price, ps.price,
    ((net_sell_price - net_buy_price) / net_buy_price) * 100, buy_fee, sell_fee⟩

/-- The per-coin candidate computed by one pass of the outer loop of
`find_arbitrage_opportunity`.  `sorted_prices[0]` is the head of the sorted
list and `sorted_prices[-1]` its last element.  (`quotes = []` cannot occur
in the bot, whose exchange list is fixed and non-empty.) -/
def evalCoin (cd : CoinData) : Option Candidate :=
  match sortByPrice (buildPrices cd.base_price cd.quotes) with
  | [] => none
  | first :: rest => some (mkCandidate cd.coin first (rest.getLastD first))

/-- The best-tracking update of `find_arbitrage_opportunity`:
`if profit_pct > best_profit_pct and profit_pct >= min_profit_threshold`. -/
def bestStep (min_profit_threshold : ℚ) (acc : Option Candidate × ℚ) (c : Candidate) :
    Option Candidate × ℚ :=
  if c.profit_pct > acc.2 ∧ c.profit_pct ≥ min_profit_threshold then (some c, c.profit_pct)
  else acc

/-- Source `find_arbitrage_opportunity(min_profit_threshold)`: scan each coin,
keep the best candidate, starting from `best_opportunity = None` and
`best_profit_pct = 0`. -/
def find_arbitrage_opportunity (min_profit_threshold : ℚ) (coins : List CoinData) :
    Option Candidate :=
  (coins.foldl
    (fun acc cd =>
      match evalCoin cd with
      | none => acc
      | some c => bestStep min_profit_threshold acc c)
    ((none : Option Candidate), (0 : ℚ))).1

/-- The `trade_record` dict built by `execute_trade`. -/
structure TradeRecord where
  timestamp : String
  coin : String
  quantity : ℚ
  buy_exchange : String
  sell_exchange : String
  buy_price : ℚ
  sell_price : ℚ
  buy_fee : ℚ
  sell_fee : ℚ
  total_fees : ℚ
  net_profit : ℚ
  profit_pct : ℚ
  capital_after : ℚ
  deriving DecidableEq, Repr

/-- The fields of `class ArbitrageBot`. -/
structure ArbitrageBot where
  capital : ℚ
  exchanges : List Exchange
  base_prices : List (String × ℚ)
  coins : List String
  trades : List TradeRecord
  total_profit : ℚ
  successful_trades : ℕ
  failed_trades : ℕ
  deriving DecidableEq, Repr

/-- The four hardwired exchanges of `ArbitrageBot.__init__`. -/
def default_exchanges : List Exchange :=
  [⟨"Binance", 0.1, 0.015⟩, ⟨"Coinbase", 0.5, 0.02⟩,
   ⟨"Kraken", 0.26, 0.018⟩, ⟨"Bybit", 0.1, 0.012⟩]

/-- The eight hardwired base prices of `ArbitrageBot.__init__`. -/
def default_base_prices : List (String × ℚ) :=
  [("BTC", 45000), ("ETH", 2500), ("BNB", 320), ("SOL", 100),
   ("ADA", 0.50), ("XRP", 0.60), ("DOGE", 0.08), ("MATIC", 0.85)]

/-- Source `ArbitrageBot.__init__(initial_capital)`: stores the capital unchanged,
hardwires the exchange and coin lists, and zeroes the counters.  There is no
validation of any input. -/
def ArbitrageBot.init (initial_capital : ℚ) : ArbitrageBot :=
  { capital := initial_capital
    exchanges := default_exchanges
    base_prices := default_base_prices
    coins := default_base_prices.map Prod.fst
    trades := []
    total_profit := 0
    successful_trades := 0
    failed_trades := 0 }

/-- Source `execute_trade(opportunity)`: on `None`, bump the missed counter and
return `None`; otherwise size the trade at 10% of capital and update the
ledger.  The `datetime.now()` timestamp is passed in as `now`. -/
def execute_trade (now : String) (bot : ArbitrageBot) (opportunity : Option Candidate) :
    ArbitrageBot × Option TradeRecord :=
  match opportunity with
  | none => ({ bot with failed_trades := bot.failed_trades + 1 }, none)
  | some opp =>
    let trade_amount := bot.capital * 0.1
    let quantity := trade_amount / opp.buy_price
    let total_buy_cost := opp.buy_price * quantity + opp.buy_fee * quantity
    let total_sell_revenue := opp.sell_price * quantity - opp.sell_fee * quantity
    let net_profit := total_sell_revenue - total_buy_cost
    let new_capital := bot.capital + net_profit
    let record : TradeRecord :=
      { timestamp := now
        coin := opp.coin
        quantity := quantity
        buy_exchange := opp.buy_exchange.name
        sell_exchange := opp.sell_exchange.name
        buy_price := opp.buy_price
        sell_price := opp.sell_price
        buy_fee := opp.buy_fee * quantity
        sell_fee := opp.sell_fee * quantity
        total_fees := (opp.buy_fee + opp.sell_fee) * quantity
        net_profit := net_profit
        profit_pct := opp.profit_pct
        capital_after := new_capital }
    ({ bot with
        capital := new_capital
        total_profit := bot.total_profit + net_profit
        successful_trades := bot.successful_trades + 1
        trades := bot.trades ++ [record] }, some record)

/-- The aggregate figures printed by `print_overall_summary`, as a
structured record; a field guarded by an `if` in the source is an `Option`
that is `none` when the guard fails (the figure is omitted, no division is
attempted). -/
structure Summary where
  total_iterations : ℕ
  successful_trades : ℕ
  missed_opportunities : ℕ
  success_rate : ℚ
  total_profit : ℚ
  final_capital : ℚ
  roi : Option ℚ
  avg_profit : Option ℚ
  deriving DecidableEq, Repr

/-- Source `print_overall_summary`: the ROI figure is computed only when
`capital - total_profit > 0` and the average-profit figure only when
`successful_trades > 0`. -/
def overall_summary (bot : ArbitrageBot) : Summary :=
  { total_iterations := bot.successful_trades + bot.failed_trades
    successful_trades := bot.successful_trades
    missed_opportunities := bot.failed_trades
    success_rate :=
      ((bot.successful_trades : ℚ) / ((bot.successful_trades : ℚ) + (bot.failed_trades : ℚ))) * 100
    total_profit := bot.total_profit
    final_capital := bot.capital
    roi :=
      if 0 < bot.capital - bot.total_profit then
        some ((bot.total_profit / (bot.capital - bot.total_profit)) * 100)
      else none
    avg_profit :=
      if 0 < bot.successful_trades then
        some (bot.total_profit / (bot.successful_trades : ℚ))
      else none }

/-! ## A shared concrete scenario

Exchange `A` (no fee, no variation) quotes 100 and exchange `B` (no fee,
variation bound 10%, draw at the upper bound) quotes 110; one coin at base
price 100. -/

def exA : Exchange := ⟨"A", 0, 0⟩

def exB : Exchange := ⟨"B", 0, 0.1⟩

def twoExCoin : CoinData := ⟨"BTC", 100, [(exA, 0), (exB, 0.1)]⟩

/-- The candidate the scanner produces on `twoExCoin`: buy at `A` for 100,
sell at `B` for 110, 10% profit, no fees. -/
def twoExCand : Candidate := ⟨"BTC", exA, exB, 100, 110, 10, 0, 0⟩

/-! ## Lemmas about the stable sort -/

theorem sortByPrice_cons (x : PriceEntry) (xs : List PriceEntry) :
    sortByPrice (x :: xs) = insertByPrice x (sortByPrice xs) := rfl

theorem mem_insertByPrice {y x : PriceEntry} {s : List PriceEntry} :
    y ∈ insertByPrice x s ↔ y = x ∨ y ∈ s := by
  induction s with
  | nil => simp [insertByPrice]
  | cons a t ih =>
    by_cases h : x.price ≤ a.price
    · simp [insertByPrice, h]
    · simp [insertByPrice, h, ih]
      tauto

theorem insertByPrice_ne_nil (x : PriceEntry) (s : List PriceEntry) :
    insertByPrice x s ≠ [] := by
  cases s with
  | nil => simp [insertByPrice]
  | cons a t =>
    simp only [insertByPrice]
    split <;> simp

theorem mem_sortByPrice {y : PriceEntry} {l : List PriceEntry} :
    y ∈ sortByPrice l ↔ y ∈ l := by
  induction l with
  | nil => simp [sortByPrice]
  | cons a t ih => simp [sortByPrice, mem_insertByPrice, ih]

theorem pairwise_insertByPrice {x : PriceEntry} {s : List PriceEntry}
    (h : s.Pairwise (fun a b => a.price ≤ b.price)) :
    (insertByPrice x s).Pairwise (fun a b => a.price ≤ b.price) := by
  induction s with
  | nil => simp [insertByPrice]
  | cons a t ih =>
    rcases List.pairwise_cons.1 h with ⟨ha, ht⟩
    by_cases hx : x.price ≤ a.price
    · simp only [insertByPrice, if_pos hx]
      refine List.pairwise_cons.2 ⟨?_, h⟩
      intro z hz
      rcases List.mem_cons.1 hz with rfl | hz
      · exact hx
      · exact le_trans hx (ha z hz)
    · simp only [insertByPrice, if_neg hx]
      refine List.pairwise_cons.2 ⟨?_, ih ht⟩
      intro z hz
      rcases mem_insertByPrice.1 hz with rfl | hz
      · exact le_of_not_le hx
      · exact ha z hz

theorem pairwise_sortByPrice (l : List PriceEntry) :
    (sortByPrice l).Pairwise (fun a b => a.price ≤ b.price) := by
  induction l with
  | nil => simp [sortByPrice]
  | cons a t ih => exact pairwise_insertByPrice ih

theorem head?_insertByPrice_of_le {x : PriceEntry} {s : List PriceEntry}
    (h : ∀ y ∈ s, x.price ≤ y.price) : (insertByPrice x s).head? = some x := by
  cases s with
  | nil => rfl
  | cons a t =>
    have ha : x.price ≤ a.price := h a (List.mem_cons_self a t)
    simp [insertByPrice, ha]

/-- Stability, buy side: if `x` is a minimum of the list and every element
strictly before `x` has a strictly greater price (so `x` is the first
minimum), then `x` is the head of the sorted list. -/
theorem sortByPrice_head_first_min (l₁ : List PriceEntry) (x : PriceEntry) (l₂ : List PriceEntry)
    (h₁ : ∀ y ∈ l₁, x.price < y.price) (h₂ : ∀ y ∈ l₂, x.price ≤ y.price) :
    (sortByPrice (l₁ ++ x :: l₂)).head? = some x := by
  induction l₁ with
  | nil =>
    rw [List.nil_append, sortByPrice_cons]
    apply head?_insertByPrice_of_le
    intro y hy
    exact h₂ y (mem_sortByPrice.1 hy)
  | cons a t ih =>
    have hrec := ih fun y hy => h₁ y (List.mem_cons_of_mem a hy)
    rw [List.cons_append, sortByPrice_cons]
    obtain ⟨s, hs⟩ : ∃ s, sortByPrice (t ++ x :: l₂) = x :: s := by
      cases hsp : sortByPrice (t ++ x :: l₂) with
      | nil => rw [hsp] at hrec; simp at hrec
      | cons b s =>
        rw [hsp] at hrec
        simp at hrec
        exact ⟨s, by rw [hrec]⟩
    rw [hs]
    have hxa : ¬ a.price ≤ x.price := not_le.2 (h₁ a (List.mem_cons_self a t))
    simp [insertByPrice, hxa]

theorem insertByPrice_of_forall_lt {x : PriceEntry} {s : List PriceEntry}
    (h : ∀ y ∈ s, y.price < x.price) : insertByPrice x s = s ++ [x] := by
  induction s with
  | nil => rfl
  | cons a t ih =>
    have ha : ¬ x.price ≤ a.price := not_le.2 (h a (List.mem_cons_self a t))
    simp [insertByPrice, ha, ih fun y hy => h y (List.mem_cons_of_mem a hy)]

theorem getLast?_insertByPrice_of_le (a z : PriceEntry) :
    ∀ s : List PriceEntry, s.getLast? = some z → a.price ≤ z.price →
      (insertByPrice a s).getLast? = some z := by
  intro s
  induction s with
  | nil => intro hs _; simp at hs
  | cons y ys ih =>
    intro hs hle
    by_cases hy : a.price ≤ y.price
    · simp only [insertByPrice, if_pos hy]
      rw [List.getLast?_cons_cons]
      exact hs
    · simp only [insertByPrice, if_neg hy]
      cases ys with
      | nil =>
        simp at hs
        subst hs
        exact absurd hle hy
      | cons w ws =>
        rw [List.getLast?_cons_cons] at hs
        have hys := ih hs hle
        rw [List.getLast?_cons, hys]
        rfl

/-- Stability, sell side: if `x` is a maximum of the list and every element
strictly after `x` has a strictly smaller price (so `x` is the last
maximum), then `x` is the last element of the sorted list. -/
theorem sortByPrice_getLast_last_max (l₁ : List PriceEntry) (x : PriceEntry) (l₂ : List PriceEntry)
    (h₁ : ∀ y ∈ l₁, y.price ≤ x.price) (h₂ : ∀ y ∈ l₂, y.price < x.price) :
    (sortByPrice (l₁ ++ x :: l₂)).getLast? = some x := by
  induction l₁ with
  | nil =>
    rw [List.nil_append, sortByPrice_cons]
    rw [insertByPrice_of_forall_lt fun y hy => h₂ y (mem_sortByPrice.1 hy)]
    exact List.getLast?_concat _
  | cons a t ih =>
    have hrec := ih fun y hy => h₁ y (List.mem_cons_of_mem a hy)
    rw [List.cons_append, sortByPrice_cons]
    exact getLast?_insertByPrice_of_le a x _ hrec (h₁ a (List.mem_cons_self a t))

theorem sortByPrice_head?_min {l : List PriceEntry} {h : PriceEntry}
    (hh : (sortByPrice l).head? = some h) : h ∈ l ∧ ∀ y ∈ l, h.price ≤ y.price := by
  obtain ⟨t, ht⟩ : ∃ t, sortByPrice l = h :: t := by
    cases hs : sortByPrice l with
    | nil => rw [hs] at hh; simp at hh
    | cons b s =>
      rw [hs] at hh
      simp at hh
      exact ⟨s, by rw [hh]⟩
  have hp := pairwise_sortByPrice l
  rw [ht] at hp
  constructor
  · exact mem_sortByPrice.1 (ht ▸ List.mem_cons_self h t)
  · intro y hy
    have hy2 : y ∈ sortByPrice l := mem_sortByPrice.2 hy
    rw [ht] at hy2
    rcases List.mem_cons.1 hy2 with rfl | hyt
    · exact le_refl _
    · exact (List.pairwise_cons.1 hp).1 y hyt

theorem mem_of_getLast?_entry : ∀ {s : List PriceEntry} {m : PriceEntry},
    s.getLast? = some m → m ∈ s := by
  intro s
  induction s with
  | nil => intro m h; simp at h
  | cons a t ih =>
    intro m h
    cases t with
    | nil =>
      simp at h
      subst h
      exact List.mem_cons_self ..
    | cons b t' =>
      rw [List.getLast?_cons_cons] at h
      exact List.mem_cons_of_mem a (ih h)

theorem pairwise_getLast?_max : ∀ (s : List PriceEntry),
    s.Pairwise (fun a b => a.price ≤ b.price) → ∀ {m : PriceEntry}, s.getLast? = some m →
      ∀ y ∈ s, y.price ≤ m.price := by
  intro s
  induction s with
  | nil => intro _ m h; simp at h
  | cons a t ih =>
    intro hp m hm y hy
    cases t with
    | nil =>
      simp at hm
      subst hm
      simp at hy
      subst hy
      exact le_refl _
    | cons b t' =>
      rw [List.getLast?_cons_cons] at hm
      rcases List.pairwise_cons.1 hp with ⟨ha, ht⟩
      rcases List.mem_cons.1 hy with rfl | hy
      · exact ha m (mem_of_getLast?_entry hm)
      · exact ih ht hm y hy

theorem sortByPrice_getLast?_max {l : List PriceEntry} {m : PriceEntry}
    (hm : (sortByPrice l).getLast? = some m) : m ∈ l ∧ ∀ y ∈ l, y.price ≤ m.price := by
  refine ⟨mem_sortByPrice.1 (mem_of_getLast?_entry hm), ?_⟩
  intro y hy
  exact pairwise_getLast?_max _ (pairwise_sortByPrice l) hm y (mem_sortByPrice.2 hy)

/-! ## Lemmas about the price dict -/

theorem mem_dictInsert {p x : PriceEntry} : ∀ {s : List PriceEntry},
    p ∈ dictInsert x s → p = x ∨ p ∈ s := by
  intro s
  induction s with
  | nil =>
    intro h
    simp [dictInsert] at h
    exact Or.inl h
  | cons a t ih =>
    intro h
    simp only [dictInsert] at h
    split at h
    · rcases List.mem_cons.1 h with rfl | h
      · exact Or.inl rfl
      · exact Or.inr (List.mem_cons_of_mem a h)
    · rcases List.mem_cons.1 h with rfl | h
      · exact Or.inr (List.mem_cons_self ..)
      · rcases ih h with h | h
        · exact Or.inl h
        · exact Or.inr (List.mem_cons_of_mem a h)

theorem mem_foldl_dictInsert (base : ℚ) :
    ∀ (l : List (Exchange × ℚ)) (acc : List PriceEntry) (p : PriceEntry),
      p ∈ l.foldl (fun acc q => dictInsert (mkEntry base q) acc) acc →
      p ∈ acc ∨ ∃ q ∈ l, p = mkEntry base q := by
  intro l
  induction l with
  | nil => intro acc p h; exact Or.inl h
  | cons q t ih =>
    intro acc p h
    rw [List.foldl_cons] at h
    rcases ih _ p h with h | ⟨q', hq', rfl⟩
    · rcases mem_dictInsert h with rfl | h
      · exact Or.inr ⟨q, List.mem_cons_self .., rfl⟩
      · exact Or.inl h
    · exact Or.inr ⟨q', List.mem_cons_of_mem q hq', rfl⟩

/-- Every entry of the `prices` dict is the quote of one of the exchanges. -/
theorem mem_buildPrices {base : ℚ} {quotes : List (Exchange × ℚ)} {p : PriceEntry}
    (h : p ∈ buildPrices base quotes) : ∃ q ∈ quotes, p = mkEntry base q := by
  rcases mem_foldl_dictInsert base quotes [] p h with h | h
  · simp at h
  · exact h

theorem dictInsert_eq_append {x : PriceEntry} : ∀ {s : List PriceEntry},
    (∀ p ∈ s, p.name ≠ x.name) → dictInsert x s = s ++ [x] := by
  intro s
  induction s with
  | nil => intro; rfl
  | cons a t ih =>
    intro h
    have ha : ¬ (a.name = x.name) := h a (List.mem_cons_self ..)
    simp [dictInsert, ha, ih fun p hp => h p (List.mem_cons_of_mem a hp)]

theorem buildPrices_eq_map_aux (base : ℚ) :
    ∀ (l : List (Exchange × ℚ)) (acc : List PriceEntry),
      (l.map fun q => q.1.name).Nodup →
      (∀ p ∈ acc, ∀ q ∈ l, p.name ≠ q.1.name) →
      l.foldl (fun acc q => dictInsert (mkEntry base q) acc) acc = acc ++ l.map (mkEntry base) := by
  intro l
  induction l with
  | nil => intro acc _ _; simp
  | cons q t ih =>
    intro acc hnd hdisj
    rw [List.foldl_cons, List.map_cons]
    rw [dictInsert_eq_append fun p hp => hdisj p hp q (List.mem_cons_self ..)]
    rw [List.map_cons] at hnd
    rcases List.nodup_cons.1 hnd with ⟨hqt, hndt⟩
    rw [ih (acc ++ [mkEntry base q]) hndt ?_]
    · simp
    · intro p hp q' hq'
      rcases List.mem_append.1 hp with hp | hp
      · exact hdisj p hp q' (List.mem_cons_of_mem q hq')
      · simp at hp
        subst hp
        intro hname
        apply hqt
        have hmem : q'.1.name ∈ t.map fun r => r.1.name := List.mem_map_of_mem _ hq'
        rw [← hname] at hmem
        exact hmem

theorem dictInsert_find?_self_of_name (x : PriceEntry) (n : String) (hx : x.name = n) :
    ∀ s : List PriceEntry,
      (dictInsert x s).find? (fun p => p.name == n) = some x := by
  intro s
  induction s with
  | nil =>
    rw [show dictInsert x [] = [x] from rfl]
    rw [List.find?_cons_of_pos]
    simp [hx]
  | cons a t ih =>
    by_cases h : a.name = x.name
    · rw [show dictInsert x (a :: t) = x :: t by simp [dictInsert, h]]
      rw [List.find?_cons_of_pos]
      simp [hx]
    · rw [show dictInsert x (a :: t) = a :: dictInsert x t by simp [dictInsert, h]]
      rw [List.find?_cons_of_neg, ih]
      simp only [beq_eq_false_iff_ne, ne_eq, Bool.not_eq_true]
      intro hcon
      rw [← hx] at hcon
      exact h hcon

theorem dictInsert_find?_ne (x : PriceEntry) (n : String) (hn : ¬ x.name = n) :
    ∀ s : List PriceEntry,
      (dictInsert x s).find? (fun p => p.name == n) = s.find? (fun p => p.name == n) := by
  intro s
  induction s with
  | nil =>
    rw [show dictInsert x [] = [x] from rfl]
    rw [List.find?_cons_of_neg, List.find?_nil]
    simp [hn]
  | cons a t ih =>
    by_cases h : a.name = x.name
    · rw [show dictInsert x (a :: t) = x :: t by simp [dictInsert, h]]
      rw [List.find?_cons_of_neg, List.find?_cons_of_neg]
      · simp only [Bool.not_eq_true, beq_eq_false_iff_ne, ne_eq]
        rw [h]
        exact hn
      · simp [hn]
    · rw [show dictInsert x (a :: t) = a :: dictInsert x t by simp [dictInsert, h]]
      by_cases ha : a.name = n
      · rw [List.find?_cons_of_pos, List.find?_cons_of_pos] <;> simp [ha]
      · rw [List.find?_cons_of_neg, List.find?_cons_of_neg, ih] <;> simp [ha]

theorem buildPrices_find?_aux (base : ℚ) (n : String) :
    ∀ (l : List (Exchange × ℚ)) (acc : List PriceEntry),
      (l.foldl (fun a q => dictInsert (mkEntry base q) a) acc).find? (fun p => p.name == n)
        = ((l.reverse.find? fun q => q.1.name == n).map (mkEntry base)).or
            (acc.find? (fun p => p.name == n)) := by
  intro l
  induction l with
  | nil =>
    intro acc
    simp
  | cons q t ih =>
    intro acc
    rw [List.foldl_cons, ih, List.reverse_cons, List.find?_append]
    cases hrev : t.reverse.find? (fun r => r.1.name == n) with
    | some r => simp
    | none =>
      by_cases hq : q.1.name = n
      · rw [List.find?_cons_of_pos _ (by simp [hq])]
        rw [dictInsert_find?_self_of_name (mkEntry base q) n hq acc]
        simp
      · rw [List.find?_cons_of_neg _ (by simp [hq])]
        rw [dictInsert_find?_ne (mkEntry base q) n hq acc]
        simp

/-- For every quote list and every exchange name, the entry the `prices`
dict finally holds under that name is the quote of the LAST exchange listed
with that name. -/
theorem buildPrices_find?_eq (base : ℚ) (n : String) (quotes : List (Exchange × ℚ)) :
    (buildPrices base quotes).find? (fun p => p.name == n)
      = (quotes.reverse.find? fun q => q.1.name == n).map (mkEntry base) := by
  have h := buildPrices_find?_aux base n quotes []
  simpa [buildPrices] using h

theorem dictInsert_names_nodup {x : PriceEntry} : ∀ {s : List PriceEntry},
    (s.map fun p => p.name).Nodup → ((dictInsert x s).map fun p => p.name).Nodup := by
  intro s
  induction s with
  | nil =>
    intro _
    simp [dictInsert]
  | cons a t ih =>
    intro h
    rw [List.map_cons, List.nodup_cons] at h
    obtain ⟨ha, ht⟩ := h
    by_cases hx : a.name = x.name
    · rw [show dictInsert x (a :: t) = x :: t by simp [dictInsert, hx]]
      rw [List.map_cons, List.nodup_cons]
      refine ⟨?_, ht⟩
      rw [← hx]
      exact ha
    · rw [show dictInsert x (a :: t) = a :: dictInsert x t by simp [dictInsert, hx]]
      rw [List.map_cons, List.nodup_cons]
      refine ⟨?_, ih ht⟩
      intro hmem
      rcases List.mem_map.1 hmem with ⟨p, hp, hpn⟩
      rcases mem_dictInsert hp with rfl | hp
      · exact hx hpn.symm
      · apply ha
        rw [← hpn]
        exact List.mem_map_of_mem _ hp

/-- The `prices` dict never holds two entries with the same name. -/
theorem buildPrices_names_nodup (base : ℚ) (quotes : List (Exchange × ℚ)) :
    ((buildPrices base quotes).map fun p => p.name).Nodup := by
  suffices h : ∀ (l : List (Exchange × ℚ)) (acc : List PriceEntry),
      (acc.map fun p => p.name).Nodup →
      ((l.foldl (fun a q => dictInsert (mkEntry base q) a) acc).map fun p => p.name).Nodup by
    exact h quotes [] (by simp)
  intro l
  induction l with
  | nil =>
    intro acc h
    exact h
  | cons q t ih =>
    intro acc h
    rw [List.foldl_cons]
    exact ih _ (dictInsert_names_nodup h)

theorem find?_name_of_mem : ∀ {s : List PriceEntry},
    (s.map fun p => p.name).Nodup → ∀ {p : PriceEntry}, p ∈ s →
      s.find? (fun e => e.name == p.name) = some p := by
  intro s
  induction s with
  | nil =>
    intro _ p hp
    simp at hp
  | cons a t ih =>
    intro h p hp
    rw [List.map_cons, List.nodup_cons] at h
    obtain ⟨ha, ht⟩ := h
    rcases List.mem_cons.1 hp with rfl | hp
    · rw [List.find?_cons_of_pos]
      simp
    · rw [List.find?_cons_of_neg, ih ht hp]
      simp only [Bool.not_eq_true, beq_eq_false_iff_ne, ne_eq]
      intro hcon
      apply ha
      rw [hcon]
      exact List.mem_map_of_mem _ hp

/-- With pairwise-distinct exchange names the `prices` dict is exactly the
quote list in configured order. -/
theorem buildPrices_eq_map {base : ℚ} {quotes : List (Exchange × ℚ)}
    (hnd : (quotes.map fun q => q.1.name).Nodup) :
    buildPrices base quotes = quotes.map (mkEntry base) := by
  have h := buildPrices_eq_map_aux base quotes [] hnd (by simp)
  simpa [buildPrices] using h

/-! ## Lemmas about the best-candidate fold -/

theorem find_foldl_filterMap (th : ℚ) :
    ∀ (coins : List CoinData) (acc : Option Candidate × ℚ),
      coins.foldl
        (fun acc cd =>
          match evalCoin cd with
          | none => acc
          | some c => bestStep th acc c) acc
      = (coins.filterMap evalCoin).foldl (bestStep th) acc := by
  intro coins
  induction coins with
  | nil => intro acc; rfl
  | cons cd t ih =>
    intro acc
    rw [List.foldl_cons, List.filterMap_cons]
    cases h : evalCoin cd with
    | none => simp only [h]; exact ih acc
    | some c => simp only [h, List.foldl_cons]; exact ih _

theorem find_eq (th : ℚ) (coins : List CoinData) :
    find_arbitrage_opportunity th coins =
      ((coins.filterMap evalCoin).foldl (bestStep th)
        ((none : Option Candidate), (0 : ℚ))).1 := by
  unfold find_arbitrage_opportunity
  rw [find_foldl_filterMap]

/-- Full characterization of the best-tracking fold, for any starting
accumulator: either no candidate ever beat the running best (the
accumulator is returned unchanged and every candidate fails the update
test), or the result is a candidate that beats the start and dominates the
whole list. -/
theorem bestStep_spec (th : ℚ) :
    ∀ (l : List Candidate) (o : Option Candidate) (b : ℚ),
      (l.foldl (bestStep th) (o, b) = (o, b) ∧
        ∀ d ∈ l, d.profit_pct ≤ b ∨ d.profit_pct < th) ∨
      (∃ c ∈ l, l.foldl (bestStep th) (o, b) = (some c, c.profit_pct) ∧
        b < c.profit_pct ∧ th ≤ c.profit_pct ∧ ∀ d ∈ l, d.profit_pct ≤ c.profit_pct) := by
  intro l
  induction l with
  | nil =>
    intro o b
    left
    exact ⟨rfl, by simp⟩
  | cons x t ih =>
    intro o b
    by_cases hx : x.profit_pct > b ∧ x.profit_pct ≥ th
    · have hstep : bestStep th (o, b) x = (some x, x.profit_pct) := by
        simp [bestStep, hx]
      rcases ih (some x) x.profit_pct with ⟨heq, hall⟩ | ⟨c, hc, heq, hlt, hth, hall⟩
      · right
        refine ⟨x, List.mem_cons_self .., ?_, hx.1, hx.2, ?_⟩
        · rw [List.foldl_cons, hstep]
          exact heq
        · intro d hd
          rcases List.mem_cons.1 hd with rfl | hd
          · exact le_refl _
          · rcases hall d hd with h | h
            · exact h
            · exact le_of_lt (lt_of_lt_of_le h hx.2)
      · right
        refine ⟨c, List.mem_cons_of_mem x hc, ?_, lt_trans hx.1 hlt, hth, ?_⟩
        · rw [List.foldl_cons, hstep]
          exact heq
        · intro d hd
          rcases List.mem_cons.1 hd with rfl | hd
          · exact le_of_lt hlt
          · exact hall d hd
    · have hstep : bestStep th (o, b) x = (o, b) := by
        simp only [bestStep]
        rw [if_neg hx]
      rcases ih o b with ⟨heq, hall⟩ | ⟨c, hc, heq, hlt, hth, hall⟩
      · left
        refine ⟨?_, ?_⟩
        · rw [List.foldl_cons, hstep]
          exact heq
        · intro d hd
          rcases List.mem_cons.1 hd with rfl | hd
          · rcases not_and_or.1 hx with h | h
            · exact Or.inl (le_of_not_lt h)
            · exact Or.inr (lt_of_not_le h)
          · exact hall d hd
      · right
        refine ⟨c, List.mem_cons_of_mem x hc, ?_, hlt, hth, ?_⟩
        · rw [List.foldl_cons, hstep]
          exact heq
        · intro d hd
          rcases List.mem_cons.1 hd with rfl | hd
          · rcases not_and_or.1 hx with h | h
            · exact le_trans (le_of_not_lt h) (le_of_lt hlt)
            · exact le_trans (le_of_lt (lt_of_not_le h)) hth
          · exact hall d hd

/-- What a returned opportunity satisfies: it is one of the per-coin
candidates, its profit percentage is strictly positive (the running best
starts at `0`) and at least the threshold, and it dominates all other
candidates. -/
theorem find_some_spec {th : ℚ} {coins : List CoinData} {c : Candidate}
    (h : find_arbitrage_opportunity th coins = some c) :
    c ∈ coins.filterMap evalCoin ∧ 0 < c.profit_pct ∧ th ≤ c.profit_pct ∧
      ∀ d ∈ coins.filterMap evalCoin, d.profit_pct ≤ c.profit_pct := by
  rw [find_eq] at h
  rcases bestStep_spec th (coins.filterMap evalCoin) none 0 with
    ⟨heq, _⟩ | ⟨c', hc', heq, hb, hth, hall⟩
  · rw [heq] at h
    simp at h
  · rw [heq] at h
    simp at h
    subst h
    exact ⟨hc', hb, hth, hall⟩

/-- When the scan returns nothing, every per-coin candidate either had a
non-positive profit percentage or fell below the threshold. -/
theorem find_none_spec {th : ℚ} {coins : List CoinData}
    (h : find_arbitrage_opportunity th coins = none) :
    ∀ d ∈ coins.filterMap evalCoin, d.profit_pct ≤ 0 ∨ d.profit_pct < th := by
  rw [find_eq] at h
  rcases bestStep_spec th (coins.filterMap evalCoin) none 0 with
    ⟨heq, hall⟩ | ⟨c', _, heq, _, _, _⟩
  · exact hall
  · rw [heq] at h
    simp at h

/-- If no per-coin candidate has strictly positive profit percentage, the
scan returns nothing, whatever the threshold. -/
theorem find_eq_none_of_nonpos {th : ℚ} {coins : List CoinData}
    (h : ∀ d ∈ coins.filterMap evalCoin, d.profit_pct ≤ 0) :
    find_arbitrage_opportunity th coins = none := by
  rw [find_eq]
  rcases bestStep_spec th (coins.filterMap evalCoin) none 0 with
    ⟨heq, _⟩ | ⟨c, hc, heq, hb, _, _⟩
  · rw [heq]
  · exact absurd (h c hc) (not_le.2 hb)

/-- Destructor for a successful per-coin evaluation. -/
theorem evalCoin_eq_some {cd : CoinData} {c : Candidate} (h : evalCoin cd = some c) :
    ∃ first rest, sortByPrice (buildPrices cd.base_price cd.quotes) = first :: rest ∧
      c = mkCandidate cd.coin first (rest.getLastD first) := by
  unfold evalCoin at h
  cases hs : sortByPrice (buildPrices cd.base_price cd.quotes) with
  | nil =>
    rw [hs] at h
    simp at h
  | cons f r =>
    rw [hs] at h
    exact ⟨f, r, rfl, (Option.some.inj h).symm⟩

/-! ## Helpers for the per-coin evaluation -/

theorem sortByPrice_ne_nil {l : List PriceEntry} (h : l ≠ []) : sortByPrice l ≠ [] := by
  cases l with
  | nil => exact absurd rfl h
  | cons x xs =>
    rw [sortByPrice_cons]
    exact insertByPrice_ne_nil _ _

theorem evalCoin_of_sort {cd : CoinData} {first : PriceEntry} {rest : List PriceEntry}
    (hs : sortByPrice (buildPrices cd.base_price cd.quotes) = first :: rest) :
    evalCoin cd = some (mkCandidate cd.coin first (rest.getLastD first)) := by
  unfold evalCoin
  rw [hs]

theorem mkCandidate_buy_exchange (coin : String) (pb ps : PriceEntry) :
    (mkCandidate coin pb ps).buy_exchange = pb.exchange := rfl

theorem mkCandidate_sell_exchange (coin : String) (pb ps : PriceEntry) :
    (mkCandidate coin pb ps).sell_exchange = ps.exchange := rfl

theorem mkCandidate_buy_price (coin : String) (pb ps : PriceEntry) :
    (mkCandidate coin pb ps).buy_price = pb.price := rfl

theorem mkCandidate_sell_price (coin : String) (pb ps : PriceEntry) :
    (mkCandidate coin pb ps).sell_price = ps.price := rfl

theorem mkCandidate_buy_fee (coin : String) (pb ps : PriceEntry) :
    (mkCandidate coin pb ps).buy_fee = pb.exchange.calculate_fee pb.price := rfl

theorem mkCandidate_sell_fee (coin : String) (pb ps : PriceEntry) :
    (mkCandidate coin pb ps).sell_fee = ps.exchange.calculate_fee ps.price := rfl

theorem mkCandidate_profit_pct (coin : String) (pb ps : PriceEntry) :
    (mkCandidate coin pb ps).profit_pct =
      ((ps.price - ps.exchange.calculate_fee ps.price
          - (pb.price + pb.exchange.calculate_fee pb.price))
        / (pb.price + pb.exchange.calculate_fee pb.price)) * 100 := rfl

/-- The scanner's chosen buy price is a minimum of the quoted prices and its
sell price a maximum, whenever the exchange names are distinct and there is
at least one quote. -/
theorem evalCoin_min_max {coin : String} {base : ℚ} {quotes : List (Exchange × ℚ)}
    (hne : quotes ≠ []) (hnd : (quotes.map fun q => q.1.name).Nodup) :
    ∃ c, evalCoin ⟨coin, base, quotes⟩ = some c ∧
      (∃ q ∈ quotes, c.buy_price = q.1.get_price base q.2) ∧
      (∃ q ∈ quotes, c.sell_price = q.1.get_price base q.2) ∧
      (∀ q ∈ quotes, c.buy_price ≤ q.1.get_price base q.2) ∧
      (∀ q ∈ quotes, q.1.get_price base q.2 ≤ c.sell_price) := by
  have hmap : buildPrices base quotes = quotes.map (mkEntry base) := buildPrices_eq_map hnd
  have hbne : buildPrices base quotes ≠ [] := by
    rw [hmap]
    simpa using hne
  cases hs : sortByPrice (buildPrices base quotes) with
  | nil => exact absurd hs (sortByPrice_ne_nil hbne)
  | cons first rest =>
    have hh : (sortByPrice (buildPrices base quotes)).head? = some first := by
      rw [hs]
      rfl
    have hl : (sortByPrice (buildPrices base quotes)).getLast? = some (rest.getLastD first) := by
      rw [hs, List.getLast?_cons, List.getLastD_eq_getLast?]
    rcases sortByPrice_head?_min hh with ⟨hbmem, hbmin⟩
    rcases sortByPrice_getLast?_max hl with ⟨hsmem, hsmax⟩
    rw [hmap] at hbmem hsmem hbmin hsmax
    refine ⟨mkCandidate coin first (rest.getLastD first), evalCoin_of_sort hs, ?_, ?_, ?_, ?_⟩
    · rcases List.mem_map.1 hbmem with ⟨q, hq, hqe⟩
      refine ⟨q, hq, ?_⟩
      rw [mkCandidate_buy_price, ← hqe]
      rfl
    · rcases List.mem_map.1 hsmem with ⟨q, hq, hqe⟩
      refine ⟨q, hq, ?_⟩
      rw [mkCandidate_sell_price, ← hqe]
      rfl
    · intro q hq
      rw [mkCandidate_buy_price]
      exact hbmin (mkEntry base q) (List.mem_map_of_mem _ hq)
    · intro q hq
      rw [mkCandidate_sell_price]
      exact hsmax (mkEntry base q) (List.mem_map_of_mem _ hq)

/-- With a single exchange the net sell price is strictly below the net buy
price as soon as the fee is positive: the profit percentage is negative and
the net buy price (the division's denominator) is non-zero. -/
theorem single_candidate_profit_neg (P F : ℚ) (hP : 0 < P) (hF : 0 < F) :
    ((P - F - (P + F)) / (P + F)) * 100 < 0 ∧ P + F ≠ 0 := by
  have hPF : 0 < P + F := by linarith
  constructor
  · apply mul_neg_of_neg_of_pos
    · apply div_neg_of_neg_of_pos
      · linarith
      · exact hPF
    · norm_num
  · exact ne_of_gt hPF

/-! ## The claims -/

/-- C1, counterexample: with `min_profit_threshold = -5` the single
per-coin candidate has profit percentage `0`, which satisfies `0 ≥ -5`, yet
the scan returns none — because the running best starts at `0` and the
update needs `profit_pct > best_profit_pct`, an opportunity with
non-positive profit percentage is never returned, refuting the claim's
"returned if and only if profit percentage ≥ threshold". -/
theorem C1_counterexample :
    evalCoin ⟨"BTC", 100, [(⟨"Solo", 0, 0⟩, 0)]⟩ =
        some ⟨"BTC", ⟨"Solo", 0, 0⟩, ⟨"Solo", 0, 0⟩, 100, 100, 0, 0, 0⟩ ∧
      ((0 : ℚ) ≥ -5) ∧
      find_arbitrage_opportunity (-5) [⟨"BTC", 100, [(⟨"Solo", 0, 0⟩, 0)]⟩] = none := by
  refine ⟨?_, by norm_num, ?_⟩ <;>
    norm_num [find_arbitrage_opportunity, evalCoin, buildPrices, dictInsert, insertByPrice,
      sortByPrice, mkEntry, mkCandidate, bestStep, Exchange.get_price, Exchange.calculate_fee]

/-- C1, amended: `find_arbitrage_opportunity` tracks the candidate with the
strictly highest profit percentage starting from a baseline best of `0`, so
a returned opportunity dominates all per-coin candidates and satisfies both
`profit_pct ≥ min_profit_threshold` and `profit_pct > 0`; when it returns
none, every candidate had non-positive profit percentage or fell below the
threshold.  In particular, for a zero or negative threshold a candidate
with non-positive profit percentage is still NOT returned. -/
theorem C1_best_candidate_threshold (th : ℚ) (coins : List CoinData) :
    (∀ c, find_arbitrage_opportunity th coins = some c →
      c ∈ coins.filterMap evalCoin ∧ 0 < c.profit_pct ∧ th ≤ c.profit_pct ∧
        ∀ d ∈ coins.filterMap evalCoin, d.profit_pct ≤ c.profit_pct) ∧
    (find_arbitrage_opportunity th coins = none →
      ∀ d ∈ coins.filterMap evalCoin, d.profit_pct ≤ 0 ∨ d.profit_pct < th) :=
  ⟨fun _ h => find_some_spec h, fun h => find_none_spec h⟩

theorem C1_best_candidate_threshold_witness :
    twoExCand ∈ List.filterMap evalCoin [twoExCoin] ∧
      0 < twoExCand.profit_pct ∧ (1 : ℚ) ≤ twoExCand.profit_pct :=
  have h := (C1_best_candidate_threshold 1 [twoExCoin]).1 twoExCand (by
    norm_num [find_arbitrage_opportunity, evalCoin, buildPrices, dictInsert, insertByPrice,
      sortByPrice, mkEntry, mkCandidate, bestStep, Exchange.get_price, Exchange.calculate_fee,
      twoExCoin, twoExCand, exA, exB])
  ⟨h.1, h.2.1, h.2.2.1⟩

/-- C2, counterexample: `Exchange("X", -1, -2)` is constructed successfully
and stores the negative fee rate and negative variation unchanged, and
`ArbitrageBot(-5)` and `ArbitrageBot(0)` are constructed successfully with
non-positive capital — construction never raises a configuration error,
refuting the fail-fast claim. -/
theorem C2_counterexample :
    (Exchange.mk "X" (-1) (-2)).trading_fee = -1 ∧
    (Exchange.mk "X" (-1) (-2)).price_variation = -2 ∧
    (ArbitrageBot.init (-5)).capital = -5 ∧
    (ArbitrageBot.init 0).capital = 0 :=
  ⟨rfl, rfl, rfl, rfl⟩

/-- C2, amended: construction performs no validation at all — the exchange
constructor stores any name, fee rate and price variation unchanged
(negative values included) and the bot constructor accepts any initial
capital unchanged (non-positive values included); the exchange and asset
lists are hardwired in the bot constructor (four exchanges, eight coins),
not constructor inputs, so they can never be empty. -/
theorem C2_no_validation (nm : String) (fee vr capital : ℚ) :
    (Exchange.mk nm fee vr).name = nm ∧
    (Exchange.mk nm fee vr).trading_fee = fee ∧
    (Exchange.mk nm fee vr).price_variation = vr ∧
    (ArbitrageBot.init capital).capital = capital ∧
    (ArbitrageBot.init capital).exchanges = default_exchanges ∧
    (ArbitrageBot.init capital).exchanges.length = 4 ∧
    (ArbitrageBot.init capital).coins.length = 8 :=
  ⟨rfl, rfl, rfl, rfl, rfl, rfl, rfl⟩

/-- C5: `execute_trade` on an opportunity sizes the trade at exactly 10% of
current capital, sets `quantity = 0.1 * capital / buy_price`, computes
`net_profit = quantity * (sell_price - sell_fee) - quantity * (buy_price +
buy_fee)` (cost and revenue per the claim's formulas) and adds it to both
capital and cumulative profit; concretely, with capital 10000, buy 100,
sell 110 and zero fees this yields quantity 10, net profit 100 and capital
10100. -/
theorem C5_execute_trade_formulas (now : String) (bot : ArbitrageBot) (c : Candidate) :
    ((execute_trade now bot (some c)).2.map (fun r => r.quantity)
        = some (bot.capital * 0.1 / c.buy_price)) ∧
    ((execute_trade now bot (some c)).2.map (fun r => r.net_profit)
        = some (bot.capital * 0.1 / c.buy_price * (c.sell_price - c.sell_fee)
            - bot.capital * 0.1 / c.buy_price * (c.buy_price + c.buy_fee))) ∧
    ((execute_trade now bot (some c)).1.capital
        = bot.capital + (bot.capital * 0.1 / c.buy_price * (c.sell_price - c.sell_fee)
            - bot.capital * 0.1 / c.buy_price * (c.buy_price + c.buy_fee))) ∧
    ((execute_trade now bot (some c)).1.total_profit
        = bot.total_profit + (bot.capital * 0.1 / c.buy_price * (c.sell_price - c.sell_fee)
            - bot.capital * 0.1 / c.buy_price * (c.buy_price + c.buy_fee))) ∧
    ((execute_trade "t" (ArbitrageBot.init 10000)
        (some ⟨"BTC", ⟨"A", 0, 0⟩, ⟨"B", 0, 0.1⟩, 100, 110, 10, 0, 0⟩)).2.map
        (fun r => (r.quantity, r.net_profit, r.capital_after)) = some (10, 100, 10100)) := by
  refine ⟨?_, ?_, ?_, ?_, ?_⟩
  · simp [execute_trade]
  · simp [execute_trade]
    try ring
  · simp [execute_trade]
    try ring
  · simp [execute_trade]
    try ring
  · norm_num [execute_trade, ArbitrageBot.init]

/-- C8: `execute_trade(None)` increments only the missed-trade counter and
returns none; capital, cumulative profit, the success counter, the trade
history and the configuration are all unchanged. -/
theorem C8_execute_none_frame (now : String) (bot : ArbitrageBot) :
    (execute_trade now bot none).2 = none ∧
    (execute_trade now bot none).1.failed_trades = bot.failed_trades + 1 ∧
    (execute_trade now bot none).1.capital = bot.capital ∧
    (execute_trade now bot none).1.total_profit = bot.total_profit ∧
    (execute_trade now bot none).1.successful_trades = bot.successful_trades ∧
    (execute_trade now bot none).1.trades = bot.trades ∧
    (execute_trade now bot none).1.exchanges = bot.exchanges ∧
    (execute_trade now bot none).1.base_prices = bot.base_prices ∧
    (execute_trade now bot none).1.coins = bot.coins :=
  ⟨rfl, rfl, rfl, rfl, rfl, rfl, rfl, rfl, rfl⟩

/-- C9: in the aggregate summary the average-profit figure is present
exactly when the successful-trade count is strictly positive, and the ROI
figure exactly when the capital basis (final capital minus total profit) is
strictly positive; otherwise the field is omitted (`none`) and no division
is performed. -/
theorem C9_summary_guards (bot : ArbitrageBot) :
    ((overall_summary bot).avg_profit.isSome ↔ 0 < bot.successful_trades) ∧
    ((overall_summary bot).roi.isSome ↔ 0 < bot.capital - bot.total_profit) := by
  constructor
  · by_cases h : 0 < bot.successful_trades <;> simp [overall_summary, h]
  · by_cases h : 0 < bot.capital - bot.total_profit <;> simp [overall_summary, h]

/-- C10: the per-coin `prices` map is keyed by exchange name.  For EVERY
configuration of quotes and every name, the map's entry under that name is
the quote of the LAST exchange listed with that name (the lookup equals the
last same-named occurrence of the quote list), every entry of the map
arises this way, and the per-coin scan depends on the quotes only through
this map — so an earlier same-named exchange's quote is silently discarded
and contributes nothing to the scan.  (The earlier duplicate still fixes
the position of the KEY in the map, as Python dicts keep first-insertion
order; only its quote value is dropped.) -/
theorem C10_duplicate_name_overwrite (base : ℚ) (quotes : List (Exchange × ℚ)) :
    (∀ n : String, (buildPrices base quotes).find? (fun p => p.name == n)
        = (quotes.reverse.find? fun q => q.1.name == n).map (mkEntry base)) ∧
    (∀ p ∈ buildPrices base quotes,
      (quotes.reverse.find? fun q => q.1.name == p.name).map (mkEntry base) = some p) ∧
    (∀ (coin : String) (quotes2 : List (Exchange × ℚ)),
      buildPrices base quotes2 = buildPrices base quotes →
      evalCoin ⟨coin, base, quotes2⟩ = evalCoin ⟨coin, base, quotes⟩) := by
  refine ⟨fun n => buildPrices_find?_eq base n quotes, ?_, ?_⟩
  · intro p hp
    rw [← buildPrices_find?_eq base p.name quotes]
    exact find?_name_of_mem (buildPrices_names_nodup base quotes) hp
  · intro coin quotes2 h
    unfold evalCoin
    rw [h]

theorem C10_duplicate_name_overwrite_witness :
    ((buildPrices 100 [(⟨"X", 1, 0⟩, 0), (⟨"Y", 0, 0⟩, 0), (⟨"X", 2, 0⟩, 0)]).find?
        (fun p => p.name == "X")
      = (([(⟨"X", 1, 0⟩, 0), (⟨"Y", 0, 0⟩, 0), (⟨"X", 2, 0⟩, (0 : ℚ))].reverse.find?
          fun q => q.1.name == "X").map (mkEntry 100))) ∧
    evalCoin ⟨"BTC", 100, [(⟨"X", 2, 0⟩, 0), (⟨"Y", 0, 0⟩, 0)]⟩
      = evalCoin ⟨"BTC", 100, [(⟨"X", 1, 0⟩, 0), (⟨"Y", 0, 0⟩, 0), (⟨"X", 2, 0⟩, 0)]⟩ :=
  ⟨(C10_duplicate_name_overwrite 100
      [(⟨"X", 1, 0⟩, 0), (⟨"Y", 0, 0⟩, 0), (⟨"X", 2, 0⟩, 0)]).1 "X",
   (C10_duplicate_name_overwrite 100
      [(⟨"X", 1, 0⟩, 0), (⟨"Y", 0, 0⟩, 0), (⟨"X", 2, 0⟩, 0)]).2.2 "BTC"
      [(⟨"X", 2, 0⟩, 0), (⟨"Y", 0, 0⟩, 0)]
      (by
        norm_num [buildPrices, dictInsert, mkEntry]
        decide)⟩

/-- C3, counterexample: exchanges "A" and "B" (in that configured order)
both quote 100, so both tie for the minimum and for the maximum; the claim
says the first-listed exchange "A" wins BOTH ties, but the scanner picks
"A" as the buy exchange and "B" as the sell exchange — the maximum-side tie
is won by the LAST-listed exchange (Python's stable `sorted` keeps tied
elements in insertion order and the sell side takes element `[-1]`). -/
theorem C3_counterexample :
    (evalCoin ⟨"BTC", 100, [(⟨"A", 0, 0⟩, 0), (⟨"B", 0, 0⟩, 0)]⟩).map
        (fun c => (c.buy_exchange.name, c.sell_exchange.name, c.buy_price, c.sell_price)) =
      some ("A", "B", 100, 100) := by
  norm_num [evalCoin, buildPrices, dictInsert, insertByPrice, sortByPrice, mkEntry,
    mkCandidate, Exchange.get_price, Exchange.calculate_fee]

/-- C3, amended: with distinct exchange names, a tie among the minimum
quoted prices is resolved in favour of the FIRST tied exchange in
configured order (buy side), while a tie among the maximum quoted prices is
resolved in favour of the LAST tied exchange in configured order (sell
side).  Formally: if `x` is a minimal quote and everything listed before it
is strictly dearer, `x` is the buy side; if `x` is a maximal quote and
everything listed after it is strictly cheaper, `x` is the sell side. -/
theorem C3_tie_break (coin : String) (base : ℚ) (quotes pre post : List (Exchange × ℚ))
    (x : Exchange × ℚ) (hnd : (quotes.map fun q => q.1.name).Nodup) :
    (quotes = pre ++ x :: post →
      (∀ q ∈ pre, x.1.get_price base x.2 < q.1.get_price base q.2) →
      (∀ q ∈ quotes, x.1.get_price base x.2 ≤ q.1.get_price base q.2) →
      ∃ c, evalCoin ⟨coin, base, quotes⟩ = some c ∧ c.buy_exchange = x.1 ∧
        c.buy_price = x.1.get_price base x.2) ∧
    (quotes = pre ++ x :: post →
      (∀ q ∈ post, q.1.get_price base q.2 < x.1.get_price base x.2) →
      (∀ q ∈ quotes, q.1.get_price base q.2 ≤ x.1.get_price base x.2) →
      ∃ c, evalCoin ⟨coin, base, quotes⟩ = some c ∧ c.sell_exchange = x.1 ∧
        c.sell_price = x.1.get_price base x.2) := by
  constructor
  · intro hq hpre hall
    subst hq
    have hmap : buildPrices base (pre ++ x :: post)
        = (pre ++ x :: post).map (mkEntry base) := buildPrices_eq_map hnd
    have hhead : (sortByPrice (buildPrices base (pre ++ x :: post))).head?
        = some (mkEntry base x) := by
      rw [hmap, List.map_append, List.map_cons]
      apply sortByPrice_head_first_min
      · intro y hy
        rcases List.mem_map.1 hy with ⟨q, hq, rfl⟩
        exact hpre q hq
      · intro y hy
        rcases List.mem_map.1 hy with ⟨q, hq, rfl⟩
        exact hall q (List.mem_append_right pre (List.mem_cons_of_mem x hq))
    cases hs : sortByPrice (buildPrices base (pre ++ x :: post)) with
    | nil =>
      rw [hs] at hhead
      simp at hhead
    | cons first rest =>
      rw [hs] at hhead
      simp at hhead
      subst hhead
      exact ⟨mkCandidate coin (mkEntry base x) (rest.getLastD (mkEntry base x)),
        evalCoin_of_sort hs, rfl, rfl⟩
  · intro hq hpost hall
    subst hq
    have hmap : buildPrices base (pre ++ x :: post)
        = (pre ++ x :: post).map (mkEntry base) := buildPrices_eq_map hnd
    have hlast : (sortByPrice (buildPrices base (pre ++ x :: post))).getLast?
        = some (mkEntry base x) := by
      rw [hmap, List.map_append, List.map_cons]
      apply sortByPrice_getLast_last_max
      · intro y hy
        rcases List.mem_map.1 hy with ⟨q, hq, rfl⟩
        exact hall q (List.mem_append_left (x :: post) hq)
      · intro y hy
        rcases List.mem_map.1 hy with ⟨q, hq, rfl⟩
        exact hpost q hq
    cases hs : sortByPrice (buildPrices base (pre ++ x :: post)) with
    | nil =>
      rw [hs] at hlast
      simp at hlast
    | cons first rest =>
      rw [hs, List.getLast?_cons] at hlast
      have hgl : rest.getLastD first = mkEntry base x := by
        rw [List.getLastD_eq_getLast?]
        exact Option.some.inj hlast
      refine ⟨mkCandidate coin first (rest.getLastD first), evalCoin_of_sort hs, ?_, ?_⟩
      · rw [mkCandidate_sell_exchange, hgl]
        rfl
      · rw [mkCandidate_sell_price, hgl]
        rfl

theorem C3_tie_break_witness :
    ∃ c, evalCoin ⟨"BTC", 100, [(⟨"A", 0, 0⟩, 0), (⟨"B", 0, 0⟩, 0)]⟩ = some c ∧
      c.buy_exchange = (⟨"A", 0, 0⟩ : Exchange) ∧
      c.buy_price = (⟨"A", 0, 0⟩ : Exchange).get_price 100 0 :=
  (C3_tie_break "BTC" 100 [(⟨"A", 0, 0⟩, 0), (⟨"B", 0, 0⟩, 0)] [] [(⟨"B", 0, 0⟩, 0)]
      (⟨"A", 0, 0⟩, 0) (by simp)).1 rfl (by simp)
    (by norm_num [Exchange.get_price])

/-- C6: with pairwise-distinct exchange names and at least one quote for
the asset, the scanner's buy price is the minimum of the quoted prices and
its sell price the maximum (both are attained by some quote and bound all
quotes), and these two prices do not depend on the order of the exchange
list: any permutation of the quotes yields the same buy and sell price. -/
theorem C6_min_max (coin : String) (base : ℚ) (quotes : List (Exchange × ℚ))
    (hne : quotes ≠ []) (hnd : (quotes.map fun q => q.1.name).Nodup) :
    ∃ c, evalCoin ⟨coin, base, quotes⟩ = some c ∧
      (∃ q ∈ quotes, c.buy_price = q.1.get_price base q.2) ∧
      (∃ q ∈ quotes, c.sell_price = q.1.get_price base q.2) ∧
      (∀ q ∈ quotes, c.buy_price ≤ q.1.get_price base q.2) ∧
      (∀ q ∈ quotes, q.1.get_price base q.2 ≤ c.sell_price) ∧
      ∀ quotes2, quotes2.Perm quotes →
        ∃ c2, evalCoin ⟨coin, base, quotes2⟩ = some c2 ∧
          c2.buy_price = c.buy_price ∧ c2.sell_price = c.sell_price := by
  rcases @evalCoin_min_max coin base quotes hne hnd with
    ⟨c, hc, hbw, hsw, hbmin, hsmax⟩
  refine ⟨c, hc, hbw, hsw, hbmin, hsmax, ?_⟩
  intro quotes2 hperm
  have hne2 : quotes2 ≠ [] := by
    intro h
    subst h
    exact hne (List.Perm.nil_eq hperm).symm
  have hnd2 : (quotes2.map fun q => q.1.name).Nodup :=
    ((hperm.map fun q => q.1.name).nodup_iff).2 hnd
  rcases @evalCoin_min_max coin base quotes2 hne2 hnd2 with
    ⟨c2, hc2, hbw2, hsw2, hbmin2, hsmax2⟩
  refine ⟨c2, hc2, ?_, ?_⟩
  · rcases hbw with ⟨q, hq, hqe⟩
    rcases hbw2 with ⟨q2, hq2, hq2e⟩
    have h1 : c2.buy_price ≤ c.buy_price := by
      rw [hqe]
      exact hbmin2 q (hperm.mem_iff.2 hq)
    have h2 : c.buy_price ≤ c2.buy_price := by
      rw [hq2e]
      exact hbmin q2 (hperm.mem_iff.1 hq2)
    exact le_antisymm h1 h2
  · rcases hsw with ⟨q, hq, hqe⟩
    rcases hsw2 with ⟨q2, hq2, hq2e⟩
    have h1 : c.sell_price ≤ c2.sell_price := by
      rw [hqe]
      exact hsmax2 q (hperm.mem_iff.2 hq)
    have h2 : c2.sell_price ≤ c.sell_price := by
      rw [hq2e]
      exact hsmax q2 (hperm.mem_iff.1 hq2)
    exact le_antisymm h2 h1

theorem C6_min_max_witness :
    ∃ c, evalCoin ⟨"BTC", 100, [(exA, 0), (exB, 0.1)]⟩ = some c ∧
      (∃ q ∈ [(exA, 0), (exB, (0.1 : ℚ))], c.buy_price = q.1.get_price 100 q.2) ∧
      (∃ q ∈ [(exA, 0), (exB, (0.1 : ℚ))], c.sell_price = q.1.get_price 100 q.2) ∧
      (∀ q ∈ [(exA, 0), (exB, (0.1 : ℚ))], c.buy_price ≤ q.1.get_price 100 q.2) ∧
      (∀ q ∈ [(exA, 0), (exB, (0.1 : ℚ))], q.1.get_price 100 q.2 ≤ c.sell_price) ∧
      ∀ quotes2, quotes2.Perm [(exA, 0), (exB, (0.1 : ℚ))] →
        ∃ c2, evalCoin ⟨"BTC", 100, quotes2⟩ = some c2 ∧
          c2.buy_price = c.buy_price ∧ c2.sell_price = c.sell_price :=
  C6_min_max "BTC" 100 [(exA, 0), (exB, 0.1)] (by simp) (by simp [exA, exB])

/-- C7: when every coin is quoted by exactly one exchange whose trading fee
is strictly positive (the quoted price itself being positive, as the bot's
price model guarantees), every per-coin candidate has strictly negative
profit percentage and a non-zero net buy price (so the profit computation
never divides by zero and the scan cannot crash), and
`find_arbitrage_opportunity` returns none for EVERY threshold. -/
theorem C7_single_exchange (th : ℚ) (coins : List CoinData)
    (hsingle : ∀ cd ∈ coins, ∃ e u, cd.quotes = [(e, u)] ∧ 0 < e.trading_fee ∧
      0 < e.get_price cd.base_price u) :
    find_arbitrage_opportunity th coins = none ∧
    ∀ cd ∈ coins, ∀ c, evalCoin cd = some c →
      c.profit_pct < 0 ∧ c.buy_price + c.buy_fee ≠ 0 := by
  have hcand : ∀ cd ∈ coins, ∀ c, evalCoin cd = some c →
      c.profit_pct < 0 ∧ c.buy_price + c.buy_fee ≠ 0 := by
    intro cd hcd c hc
    rcases hsingle cd hcd with ⟨e, u, hq, hf, hp⟩
    have hs : sortByPrice (buildPrices cd.base_price cd.quotes)
        = [mkEntry cd.base_price (e, u)] := by
      rw [hq]
      rfl
    rw [evalCoin_of_sort hs] at hc
    have hc' := Option.some.inj hc
    subst hc'
    have hF : 0 < e.calculate_fee (e.get_price cd.base_price u) := by
      unfold Exchange.calculate_fee
      apply mul_pos hp
      apply div_pos hf
      norm_num
    exact single_candidate_profit_neg (e.get_price cd.base_price u)
      (e.calculate_fee (e.get_price cd.base_price u)) hp hF
  refine ⟨?_, hcand⟩
  apply find_eq_none_of_nonpos
  intro d hd
  rcases List.mem_filterMap.1 hd with ⟨cd, hcd, hev⟩
  exact le_of_lt (hcand cd hcd d hev).1

theorem C7_single_exchange_witness :
    find_arbitrage_opportunity (-100) [⟨"BTC", 100, [(⟨"Solo", 1, 0⟩, 0)]⟩] = none :=
  (C7_single_exchange (-100) [⟨"BTC", 100, [(⟨"Solo", 1, 0⟩, 0)]⟩] (by
    intro cd hcd
    simp only [List.mem_singleton] at hcd
    subst hcd
    exact ⟨⟨"Solo", 1, 0⟩, 0, rfl, by norm_num, by norm_num [Exchange.get_price]⟩)).1

/-- Arithmetic core of the capital-growth argument: a strictly positive
profit percentage with a positive net buy price forces a strictly positive
net profit for the 10%-of-capital trade size. -/
theorem execute_profit_pos (NSp SF P F cap : ℚ) (hnb : 0 < P + F)
    (hpct : 0 < ((NSp - SF - (P + F)) / (P + F)) * 100) (hcap : 0 < cap) (hP : 0 < P) :
    0 < NSp * (cap * 0.1 / P) - SF * (cap * 0.1 / P)
      - (P * (cap * 0.1 / P) + F * (cap * 0.1 / P)) := by
  have hDNB : 0 < (NSp - SF - (P + F)) / (P + F) := by linarith
  have hD : 0 < NSp - SF - (P + F) := by
    have h1 : 0 < (NSp - SF - (P + F)) / (P + F) * (P + F) := mul_pos hDNB hnb
    rwa [div_mul_cancel₀ _ (ne_of_gt hnb)] at h1
  have hQ : 0 < cap * 0.1 / P := by positivity
  have heq : NSp * (cap * 0.1 / P) - SF * (cap * 0.1 / P)
      - (P * (cap * 0.1 / P) + F * (cap * 0.1 / P))
      = (cap * 0.1 / P) * (NSp - SF - (P + F)) := by ring
  rw [heq]
  exact mul_pos hQ hD

/-- C4: an opportunity returned by the scanner always has strictly positive
profit percentage, whatever the threshold (zero and negative thresholds
included); executing it with strictly positive capital — under the bot's
standing configuration guarantees that quoted prices are positive and fee
rates non-negative — produces a trade record with strictly positive net
profit and strictly increases capital, while executing a missed iteration
leaves capital unchanged: capital never decreases across iterations. -/
theorem C4_capital_increases (th : ℚ) (coins : List CoinData) (c : Candidate)
    (now : String) (bot : ArbitrageBot)
    (hfind : find_arbitrage_opportunity th coins = some c)
    (hpos : ∀ cd ∈ coins, ∀ q ∈ cd.quotes, 0 < q.1.get_price cd.base_price q.2)
    (hfee : ∀ cd ∈ coins, ∀ q ∈ cd.quotes, 0 ≤ q.1.trading_fee)
    (hcap : 0 < bot.capital) :
    0 < c.profit_pct ∧
    (∃ r, (execute_trade now bot (some c)).2 = some r ∧ 0 < r.net_profit) ∧
    bot.capital < (execute_trade now bot (some c)).1.capital ∧
    ∀ bot2 : ArbitrageBot, (execute_trade now bot2 none).1.capital = bot2.capital := by
  obtain ⟨hmem, hpct0, -, -⟩ := find_some_spec hfind
  obtain ⟨cd, hcd, hev⟩ := List.mem_filterMap.1 hmem
  obtain ⟨first, rest, hs, hceq⟩ := evalCoin_eq_some hev
  subst hceq
  have hh : (sortByPrice (buildPrices cd.base_price cd.quotes)).head? = some first := by
    rw [hs]
    rfl
  obtain ⟨hfmem, -⟩ := sortByPrice_head?_min hh
  obtain ⟨qb, hqb, hfq⟩ := mem_buildPrices hfmem
  have hP : 0 < first.price := by
    rw [hfq]
    exact hpos cd hcd qb hqb
  have hT : 0 ≤ first.exchange.trading_fee := by
    rw [hfq]
    exact hfee cd hcd qb hqb
  have hFnn : 0 ≤ first.exchange.calculate_fee first.price := by
    unfold Exchange.calculate_fee
    apply mul_nonneg (le_of_lt hP)
    apply div_nonneg hT
    norm_num
  have hnb : 0 < first.price + first.exchange.calculate_fee first.price := by linarith
  have hpct := hpct0
  rw [mkCandidate_profit_pct] at hpct
  have key := execute_profit_pos (rest.getLastD first).price
    ((rest.getLastD first).exchange.calculate_fee (rest.getLastD first).price)
    first.price (first.exchange.calculate_fee first.price) bot.capital hnb hpct hcap hP
  exact ⟨hpct0, ⟨_, rfl, key⟩, lt_add_of_pos_right bot.capital key,
    fun bot2 => rfl⟩

theorem C4_capital_increases_witness :
    0 < twoExCand.profit_pct ∧
      (∃ r, (execute_trade "t" (ArbitrageBot.init 10000) (some twoExCand)).2 = some r ∧
        0 < r.net_profit) ∧
      (ArbitrageBot.init 10000).capital <
        (execute_trade "t" (ArbitrageBot.init 10000) (some twoExCand)).1.capital :=
  have h := C4_capital_increases 1 [twoExCoin] twoExCand "t" (ArbitrageBot.init 10000)
    (by
      norm_num [find_arbitrage_opportunity, evalCoin, buildPrices, dictInsert, insertByPrice,
        sortByPrice, mkEntry, mkCandidate, bestStep, Exchange.get_price, Exchange.calculate_fee,
        twoExCoin, twoExCand, exA, exB])
    (by
      norm_num [twoExCoin, exA, exB, Exchange.get_price]
      rintro a b (⟨rfl, rfl⟩ | ⟨rfl, rfl⟩) <;> norm_num)
    (by
      norm_num [twoExCoin, exA, exB]
      rintro a b (⟨rfl, rfl⟩ | ⟨rfl, rfl⟩) <;> norm_num)
    (by norm_num [ArbitrageBot.init])
  ⟨h.1, h.2.1, h.2.2.1⟩

end CryptoBot
